import Mathlib

/-!
# CraftEngineConverter — rule evaluation / transformation engine, shallow embedding

This file embeds the pure core of the YAML rule-conversion engine
(`src/utils.py`, `src/converter.py`) and proves properties of it.

Modelling conventions:
* YAML / Python values are the inductive `Val` (null, bool, int, string,
  list, mapping).  Python floats are not modelled; no verified property
  depends on them.
* Python dicts are association lists in insertion order with unique keys
  (`alistGet` / `alistSet` / `alistDel` mirror `d[k]`, `d[k] = v`, `del d[k]`).
* Python `None` is `Val.null`.  As in the source, the absence sentinel
  returned by `get_nested_value` is the same `None`, so a stored YAML
  `null` is indistinguishable from an absent field.
* In-place mutation of the record is rendered as functional update; the
  one record tree is owned by a single conversion, so this is observably
  identical (YAML-anchor aliasing inside one record is out of scope).
* External collaborators are parameters: `yamlLoad` stands for
  `yaml.safe_load` re-parsing inside `process_placeholders`, `ctxEval` /
  `evalExpr` stand for the two `asteval.Interpreter` symbol-table setups,
  and `Regex` with `reMatch` stands for `re.match` (a pattern that
  matches some prefix of the subject, i.e. start-anchored, not
  full-match).  Strings that the code feeds back into path positions
  after substitution are modelled as staying strings (the source would
  crash on a re-parse that produced a non-string path).
* File IO, YAML (de)serialisation, logging and the progress bar are
  outside the core and are not modelled; `convert_single_file_core` is
  the pure part of `convert_single_file` between load and dump.
-/

/-- YAML-style values as manipulated by the converter. -/
inductive Val where
  | null
  | bool (b : Bool)
  | int (n : Int)
  | str (s : String)
  | list (xs : List Val)
  | dict (m : List (String × Val))
deriving Inhabited

mutual

/-- Structural equality on `Val` (Python `==` restricted to the modelled types;
the Python coercions `True == 1`, `1 == 1.0` involve types we exclude). -/
def Val.beq : Val → Val → Bool
  | .null, .null => true
  | .bool a, .bool b => a == b
  | .int a, .int b => a == b
  | .str a, .str b => a == b
  | .list xs, .list ys => Val.beqList xs ys
  | .dict xs, .dict ys => Val.beqDict xs ys
  | _, _ => false

def Val.beqList : List Val → List Val → Bool
  | [], [] => true
  | x :: xs, y :: ys => Val.beq x y && Val.beqList xs ys
  | _, _ => false

def Val.beqDict : List (String × Val) → List (String × Val) → Bool
  | [], [] => true
  | (k, x) :: xs, (k2, y) :: ys => k == k2 && Val.beq x y && Val.beqDict xs ys
  | _, _ => false

end

mutual

theorem Val.beq_iff_eq : ∀ a b : Val, Val.beq a b = true ↔ a = b
  | .null, .null => by simp [Val.beq]
  | .bool a, .bool b => by simp [Val.beq]
  | .int a, .int b => by simp [Val.beq]
  | .str a, .str b => by simp [Val.beq]
  | .list xs, .list ys => by simp [Val.beq, Val.beqList_iff_eq xs ys]
  | .dict xs, .dict ys => by simp [Val.beq, Val.beqDict_iff_eq xs ys]
  | .null, .bool _ | .null, .int _ | .null, .str _ | .null, .list _ | .null, .dict _
  | .bool _, .null | .bool _, .int _ | .bool _, .str _ | .bool _, .list _ | .bool _, .dict _
  | .int _, .null | .int _, .bool _ | .int _, .str _ | .int _, .list _ | .int _, .dict _
  | .str _, .null | .str _, .bool _ | .str _, .int _ | .str _, .list _ | .str _, .dict _
  | .list _, .null | .list _, .bool _ | .list _, .int _ | .list _, .str _ | .list _, .dict _
  | .dict _, .null | .dict _, .bool _ | .dict _, .int _ | .dict _, .str _ | .dict _, .list _ =>
    by simp [Val.beq]

theorem Val.beqList_iff_eq : ∀ xs ys : List Val, Val.beqList xs ys = true ↔ xs = ys
  | [], [] => by simp [Val.beqList]
  | x :: xs, y :: ys => by
    simp [Val.beqList, Val.beq_iff_eq x y, Val.beqList_iff_eq xs ys]
  | [], _ :: _ => by simp [Val.beqList]
  | _ :: _, [] => by simp [Val.beqList]

theorem Val.beqDict_iff_eq : ∀ xs ys : List (String × Val), Val.beqDict xs ys = true ↔ xs = ys
  | [], [] => by simp [Val.beqDict]
  | (k, x) :: xs, (k2, y) :: ys => by
    simp [Val.beqDict, Val.beq_iff_eq x y, Val.beqDict_iff_eq xs ys, and_assoc]
  | [], _ :: _ => by simp [Val.beqDict]
  | _ :: _, [] => by simp [Val.beqDict]

end

instance : DecidableEq Val := fun a b =>
  decidable_of_iff (Val.beq a b = true) (Val.beq_iff_eq a b)

/-- Python dict read `d.get(key)` (first occurrence; Python dicts have unique keys). -/
def alistGet {κ β : Type} [DecidableEq κ] : List (κ × β) → κ → Option β
  | [], _ => none
  | (k, v) :: rest, key => if k = key then some v else alistGet rest key

/-- Python dict write `d[key] = v`: replaces in place, else appends (insertion order). -/
def alistSet {κ β : Type} [DecidableEq κ] : List (κ × β) → κ → β → List (κ × β)
  | [], key, v => [(key, v)]
  | (k, w) :: rest, key, v =>
    if k = key then (k, v) :: rest else (k, w) :: alistSet rest key v

/-- Python `del d[key]` (callers guard with `key in d`; no-op when absent). -/
def alistDel {κ β : Type} [DecidableEq κ] : List (κ × β) → κ → List (κ × β)
  | [], _ => []
  | (k, w) :: rest, key => if k = key then rest else (k, w) :: alistDel rest key

theorem alistGet_alistSet_self {κ β : Type} [DecidableEq κ]
    (m : List (κ × β)) (k : κ) (v : β) : alistGet (alistSet m k v) k = some v := by
  induction m with
  | nil => simp [alistSet, alistGet]
  | cons kv rest ih =>
    obtain ⟨k2, w⟩ := kv
    by_cases h : k2 = k <;> simp [alistSet, alistGet, h, ih]

theorem alistGet_alistSet_ne {κ β : Type} [DecidableEq κ]
    (m : List (κ × β)) (k k2 : κ) (v : β) (h : k2 ≠ k) :
    alistGet (alistSet m k v) k2 = alistGet m k2 := by
  induction m with
  | nil => simp [alistSet, alistGet, Ne.symm h]
  | cons kv rest ih =>
    obtain ⟨k3, w⟩ := kv
    by_cases h3 : k3 = k
    · subst h3
      simp [alistSet, alistGet, Ne.symm h]
    · by_cases h2 : k3 = k2 <;> simp [alistSet, alistGet, h3, h2, h, Ne.symm h, ih]

/-- Python `str.split(sep)` for a one-character separator (always non-empty,
`"".split('.') == ['']`, adjacent separators yield empty segments). -/
def splitOnChar (sep : Char) : List Char → List (List Char)
  | [] => [[]]
  | c :: rest =>
    let r := splitOnChar sep rest
    if c = sep then [] :: r
    else
      match r with
      | [] => [[c]]
      | h :: t => (c :: h) :: t

/-- `path.split('.')` from the source. -/
def pathParts (p : String) : List String :=
  (splitOnChar '.' p.data).map (fun l => String.mk l)

theorem splitOnChar_ne_nil (sep : Char) (l : List Char) : splitOnChar sep l ≠ [] := by
  induction l with
  | nil => simp [splitOnChar]
  | cons c rest ih =>
    simp only [splitOnChar]
    split
    · simp
    · match h : splitOnChar sep rest with
      | [] => exact absurd h ih
      | a :: b => simp

theorem pathParts_ne_nil (p : String) : pathParts p ≠ [] := by
  simp [pathParts, splitOnChar_ne_nil]

/-- The walk of `get_nested_value` over the already-split path parts:
descend through mappings, `None` as soon as a segment is missing or a
non-mapping is indexed. -/
def getParts : Val → List String → Val
  | v, [] => v
  | .dict m, part :: rest =>
    match alistGet m part with
    | some v => getParts v rest
    | none => .null
  | _, _ :: _ => .null

/-- `get_nested_value(data, path)` from `src/utils.py`. -/
def get_nested_value (data : List (String × Val)) (path : String) : Val :=
  getParts (.dict data) (pathParts path)

/-- The walk of `set_nested_value` over the already-split path parts
(functional rendering of the in-place mutation): the final segment is
assigned; an intermediate segment that is missing or not a mapping is
replaced by a fresh empty mapping. -/
def setParts : List (String × Val) → List String → Val → List (String × Val)
  | m, [], _ => m
  | m, [part], v => alistSet m part v
  | m, part :: p2 :: rest, v =>
    let child : List (String × Val) :=
      match alistGet m part with
      | some (.dict c) => c
      | _ => []
    alistSet m part (.dict (setParts child (p2 :: rest) v))

/-- `set_nested_value(data, path, value)` from `src/utils.py`. -/
def set_nested_value (data : List (String × Val)) (path : String) (v : Val) :
    List (String × Val) :=
  setParts data (pathParts path) v

/-- The walk of `delete_nested_value`: remove the final key if the whole
path resolves through mappings; otherwise leave the tree untouched. -/
def delParts : List (String × Val) → List String → List (String × Val)
  | m, [] => m
  | m, [part] => if (alistGet m part).isSome then alistDel m part else m
  | m, part :: p2 :: rest =>
    match alistGet m part with
    | some (.dict c) => alistSet m part (.dict (delParts c (p2 :: rest)))
    | _ => m

/-- `delete_nested_value(data, path)` from `src/utils.py`. -/
def delete_nested_value (data : List (String × Val)) (path : String) :
    List (String × Val) :=
  delParts data (pathParts path)

mutual

/-- Python `repr` for the modelled values (used by `str()` on containers). -/
def pyRepr : Val → String
  | .null => "None"
  | .bool b => if b then "True" else "False"
  | .int n => toString n
  | .str s => "\x27" ++ s ++ "\x27"
  | .list xs => "[" ++ pyReprList xs ++ "]"
  | .dict m => "\x7b" ++ pyReprDict m ++ "\x7d"

def pyReprList : List Val → String
  | [] => ""
  | [x] => pyRepr x
  | x :: y :: rest => pyRepr x ++ ", " ++ pyReprList (y :: rest)

def pyReprDict : List (String × Val) → String
  | [] => ""
  | [(k, v)] => "\x27" ++ k ++ "\x27: " ++ pyRepr v
  | (k, v) :: p :: rest => "\x27" ++ k ++ "\x27: " ++ pyRepr v ++ ", " ++ pyReprDict (p :: rest)

end

/-- Python `str(val)` as used when splicing a context value into a string. -/
def pyStr : Val → String
  | .str s => s
  | v => pyRepr v

/-- The per-string replacement loop of `process_placeholders`: every
`\x7bkey\x7d` token of every context entry is textually replaced by the
stringified value, in context order. -/
def stringSubst (ctx : List (String × Val)) (s : String) : String :=
  ctx.foldl (fun acc kv => acc.replace ("\x7b" ++ kv.1 ++ "\x7d") (pyStr kv.2)) s

mutual

/-- `process_placeholders(value, context)` from `src/utils.py`.  `yamlLoad`
stands for `yaml.safe_load`: when substitution changed a string, the result is
opportunistically re-parsed (`none` = parse failure keeps the string).
Mapping keys are modelled as staying strings (see file header). -/
def process_placeholders (yamlLoad : String → Option Val) (ctx : List (String × Val)) :
    Val → Val
  | .str s =>
    let processed := stringSubst ctx s
    if processed ≠ s then
      match yamlLoad processed with
      | some v => v
      | none => .str processed
    else .str s
  | .list xs => .list (processValList yamlLoad ctx xs)
  | .dict m => .dict (processValDict yamlLoad ctx m)
  | .null => .null
  | .bool b => .bool b
  | .int n => .int n

def processValList (yamlLoad : String → Option Val) (ctx : List (String × Val)) :
    List Val → List Val
  | [] => []
  | x :: xs => process_placeholders yamlLoad ctx x :: processValList yamlLoad ctx xs

def processValDict (yamlLoad : String → Option Val) (ctx : List (String × Val)) :
    List (String × Val) → List (String × Val)
  | [] => []
  | (k, v) :: rest =>
    (stringSubst ctx k, process_placeholders yamlLoad ctx v) :: processValDict yamlLoad ctx rest

end

/-- Regular expressions, standing for the patterns handed to `re.match`. -/
inductive Regex where
  | fail
  | eps
  | anyChar
  | char (c : Char)
  | seq (a b : Regex)
  | alt (a b : Regex)
  | star (a : Regex)
deriving DecidableEq

def Regex.nullable : Regex → Bool
  | .fail => false
  | .eps => true
  | .anyChar => false
  | .char _ => false
  | .seq a b => a.nullable && b.nullable
  | .alt a b => a.nullable || b.nullable
  | .star _ => true

def Regex.deriv : Regex → Char → Regex
  | .fail, _ => .fail
  | .eps, _ => .fail
  | .anyChar, _ => .eps
  | .char c, d => if c = d then .eps else .fail
  | .seq a b, d => if a.nullable then .alt (.seq (a.deriv d) b) (b.deriv d) else .seq (a.deriv d) b
  | .alt a b, d => .alt (a.deriv d) (b.deriv d)
  | .star a, d => .seq (a.deriv d) (.star a)

/-- Whole-word acceptance of a regex, by Brzozowski derivatives. -/
def Regex.accepts (r : Regex) (s : List Char) : Bool :=
  (s.foldl Regex.deriv r).nullable

/-- Truthiness of Python `re.match(pattern, s)`: the pattern matches at the
start of `s`, i.e. accepts some (possibly empty, possibly proper) prefix of
`s`.  This is start-anchored but NOT full-match. -/
def reMatch (r : Regex) (s : String) : Bool :=
  (List.range (s.data.length + 1)).any (fun n => r.accepts (s.data.take n))

/-- One condition of a nested rule (typed rendering of the condition dict;
an absent optional key is `none`). -/
structure Condition where
  path : Option String := none
  existsFlag : Option Bool := none
  value : Option Val := none
  regex_match : Option Regex := none
  min : Option Int := none
  max : Option Int := none
deriving DecidableEq

/-- `process_placeholders(condition, context)` applied to a condition dict:
strings (the path, string values) are substituted; booleans and numbers pass
through unchanged.  The regex pattern is held post-parse and so is not
re-substituted (no verified property uses a context-dependent pattern). -/
def processCondition (yamlLoad : String → Option Val) (ctx : List (String × Val))
    (c : Condition) : Condition :=
  { c with
    path := c.path.map (stringSubst ctx),
    value := c.value.map (process_placeholders yamlLoad ctx) }

/-- `exists` block of `evaluate_condition` (`is True` / `is False` tests):
`true` when the block does not reject. -/
def existsCheck (v : Val) : Option Bool → Bool
  | some true => decide (v ≠ .null)
  | some false => decide (v = .null)
  | none => true

/-- The guard after the `exists` block: an absent value cannot satisfy a
value / pattern / range check. -/
def absentCheck (v : Val) (c : Condition) : Bool :=
  !(decide (v = .null) &&
    (c.value.isSome || c.regex_match.isSome || c.min.isSome || c.max.isSome))

/-- `value` block: exact equality. -/
def valueCheck (v : Val) : Option Val → Bool
  | some w => decide (v = w)
  | none => true

/-- `regex_match` block: only strings can match, via `re.match`. -/
def regexCheck (v : Val) : Option Regex → Bool
  | some r =>
    match v with
    | .str s => reMatch r s
    | _ => false
  | none => true

/-- `min`/`max` block: only numbers compare; each given bound is inclusive. -/
def rangeCheck (v : Val) (mn mx : Option Int) : Bool :=
  if mn.isNone && mx.isNone then true
  else
    match v with
    | .int n =>
      (match mn with | some lo => decide (lo ≤ n) | none => true) &&
      (match mx with | some hi => decide (n ≤ hi) | none => true)
    | _ => false

/-- `evaluate_condition(item_config, condition, context, logger)` from
`src/utils.py`: substitute placeholders, require a truthy `path`, fetch the
value, then run the four check blocks in order (each failing block returns
`False`; reaching the end returns `True`). -/
def evaluate_condition (yamlLoad : String → Option Val) (item_config : List (String × Val))
    (condition : Condition) (context : List (String × Val)) : Bool :=
  let pc := processCondition yamlLoad context condition
  match pc.path with
  | none => false
  | some p =>
    if p = "" then false
    else
      let v := get_nested_value item_config p
      existsCheck v pc.existsFlag && absentCheck v pc && valueCheck v pc.value &&
        regexCheck v pc.regex_match && rangeCheck v pc.min pc.max

/-- One `sequence` spec (`\x7bid?, start=0, step=1, format?\x7d`). -/
structure SeqInfo where
  id : Option String := none
  start : Option Int := none
  step : Option Int := none
  format : Option String := none
deriving DecidableEq

/-- A counter key: `"shared_id_<id>"` (a string) or the tuple
`(rule_name, path)`.  In Python these live in one dict; a string never
equals a tuple, so the sum is faithful. -/
inductive CKey where
  | shared (id : String)
  | isolated (rule path : String)
deriving DecidableEq

/-- Isolated-mode key resolution: an unnamed rule (display name
`"Unnamed Rule"`) must not own an isolated counter — the path is skipped
with a logged error (`none`). -/
def isolatedKeyFor (ruleName path : String) : Option CKey :=
  if ruleName = "Unnamed Rule" then none else some (.isolated ruleName path)

/-- Counter-key resolution for one `sequence` entry (`if sequence_id:` is a
truthiness test, so an empty-string id falls back to isolated mode). -/
def counterKeyFor (ruleName path : String) (info : SeqInfo) : Option CKey :=
  match info.id with
  | some i => if i = "" then isolatedKeyFor ruleName path else some (.shared i)
  | none => isolatedKeyFor ruleName path

/-- `override_key = sequence_id if sequence_id else path`. -/
def overrideKeyFor (path : String) (info : SeqInfo) : String :=
  match info.id with
  | some i => if i = "" then path else i
  | none => path

/-- The body of the `sequence` loop of `apply_actions` for one
`path -> info` entry, instrumented: besides the new
`(content_config, sequence_counters)` state it reports which counter key
was used and the counter value written (`none` when the entry was skipped
because an unnamed rule has no isolated key).  On first use of a key the
initial value is the command-line override for the override-key when one
exists, else `start`; the written value is the raw counter, or `format`
with the literal `\x7bcounter\x7d` token replaced, when a non-empty format
string is given; afterwards the counter advances by `step`. -/
def applySeqEntryT (overrides : List (String × Int))
    (st : List (String × Val) × List (CKey × Int)) (ruleName path : String)
    (info : SeqInfo) : (List (String × Val) × List (CKey × Int)) × Option (CKey × Int) :=
  match counterKeyFor ruleName path info with
  | none => (st, none)
  | some key =>
    let startv := (info.start).getD 0
    let stepv := (info.step).getD 1
    let (counters, cur) :=
      match alistGet st.2 key with
      | some v => (st.2, v)
      | none =>
        let init := (alistGet overrides (overrideKeyFor path info)).getD startv
        (alistSet st.2 key init, init)
    let out : Val :=
      match info.format with
      | some f => if f ≠ "" then .str (f.replace "\x7bcounter\x7d" (toString cur)) else .int cur
      | none => .int cur
    ((set_nested_value st.1 path out, alistSet counters key (cur + stepv)), some (key, cur))

/-- The state effect of one `sequence` entry. -/
def applySeqEntry (overrides : List (String × Int))
    (st : List (String × Val) × List (CKey × Int)) (ruleName path : String)
    (info : SeqInfo) : List (String × Val) × List (CKey × Int) :=
  (applySeqEntryT overrides st ruleName path info).1

/-- One application of the sequence loop body, as scheduled by the engine:
a rule display-name, a path and the spec. -/
structure SeqApp where
  rule : String
  path : String
  info : SeqInfo
deriving DecidableEq

/-- Run a list of sequence applications in order (the successive
`sequence` entries executed during one file conversion, in application
order, restricted to their effect on the shared state). -/
def runSeqApps (overrides : List (String × Int)) :
    List SeqApp → List (String × Val) × List (CKey × Int) →
      List (String × Val) × List (CKey × Int)
  | [], st => st
  | a :: rest, st => runSeqApps overrides rest (applySeqEntry overrides st a.rule a.path a.info)

/-- The trace of `(counter key, counter value written)` pairs produced by a
list of sequence applications. -/
def seqTrace (overrides : List (String × Int)) :
    List SeqApp → List (String × Val) × List (CKey × Int) → List (CKey × Int)
  | [], _ => []
  | a :: rest, st =>
    match applySeqEntryT overrides st a.rule a.path a.info with
    | (st2, some kv) => kv :: seqTrace overrides rest st2
    | (st2, none) => seqTrace overrides rest st2

/-- The counter values observed by the applications bound to key `K`, in
application order. -/
def seqObserved (overrides : List (String × Int)) (K : CKey) (apps : List SeqApp)
    (st : List (String × Val) × List (CKey × Int)) : List Int :=
  ((seqTrace overrides apps st).filter (fun kv => kv.1 = K)).map (fun kv => kv.2)

/-- A `set` entry: a literal, or an `\x7bexpression, default_value?\x7d` block. -/
inductive SetVal where
  | lit (v : Val)
  | exprBlock (expression : String) (default_value : Option Val)
deriving DecidableEq

/-- A rule's action block (typed rendering of the action dict; an absent
key is `none`, and `skip` defaults to false). -/
structure Actions where
  skip : Bool := false
  delete : Option (List String) := none
  rename : Option (List (String × String)) := none
  set : Option (List (String × SetVal)) := none
  append : Option (List (String × Val)) := none
  prepend : Option (List (String × Val)) := none
  sequence : Option (List (String × SeqInfo)) := none

/-- The action kinds that `apply_actions` can execute after the `skip` gate,
in the fixed textual order of the source. -/
inductive ActionKind where
  | delete
  | rename
  | set
  | append
  | prepend
  | sequence
deriving DecidableEq

/-- `elements_to_add if isinstance(elements_to_add, list) else [elements_to_add]`. -/
def coerceToList : Val → List Val
  | .list xs => xs
  | v => [v]

/-- The body of the `delete` loop: remove each listed path. -/
def deleteEntry (cfg : List (String × Val)) (path : String) : List (String × Val) :=
  delete_nested_value cfg path

/-- The body of the `rename` loop: if the old path resolves (is not `None`),
set the value at the new path and delete the old one; otherwise skip. -/
def renameEntry (cfg : List (String × Val)) (oldPath newPath : String) :
    List (String × Val) :=
  let v := get_nested_value cfg oldPath
  if v ≠ .null then delete_nested_value (set_nested_value cfg newPath v) oldPath
  else cfg

/-- The body of the `set` loop: evaluate an expression block against the
current record (falling back to `default_value`, else skipping the path),
or take the literal; then assign. -/
def setEntry (evalExpr : String → List (String × Val) → List (String × Val) → Option Val)
    (ctx : List (String × Val)) (cfg : List (String × Val)) (path : String)
    (vc : SetVal) : List (String × Val) :=
  match vc with
  | .lit v => set_nested_value cfg path v
  | .exprBlock e dflt =>
    match evalExpr e ctx cfg with
    | some v => set_nested_value cfg path v
    | none =>
      match dflt with
      | some v => set_nested_value cfg path v
      | none => cfg

/-- The body of the `append` loop: an absent (`None`) current value starts a
fresh list of the added element(s); a list is extended at the end; any other
value is a warned, skipped type mismatch. -/
def appendEntry (cfg : List (String × Val)) (path : String) (elems : Val) :
    List (String × Val) :=
  match get_nested_value cfg path with
  | .null => set_nested_value cfg path (.list (coerceToList elems))
  | .list l => set_nested_value cfg path (.list (l ++ coerceToList elems))
  | _ => cfg

/-- The body of the `prepend` loop (`current_list[:0] = elements`). -/
def prependEntry (cfg : List (String × Val)) (path : String) (elems : Val) :
    List (String × Val) :=
  match get_nested_value cfg path with
  | .null => set_nested_value cfg path (.list (coerceToList elems))
  | .list l => set_nested_value cfg path (.list (coerceToList elems ++ l))
  | _ => cfg

/-- Placeholder substitution over a `set` entry value as the map passes
through `process_placeholders` (expression strings and defaults included). -/
def processSetVal (yamlLoad : String → Option Val) (ctx : List (String × Val)) :
    SetVal → SetVal
  | .lit v => .lit (process_placeholders yamlLoad ctx v)
  | .exprBlock e dflt =>
    .exprBlock (stringSubst ctx e) (dflt.map (process_placeholders yamlLoad ctx))

/-- Placeholder substitution over a `sequence` spec (its `id` and `format`
strings; `start` / `step` are numbers and pass through unchanged). -/
def processSeqInfo (ctx : List (String × Val)) (info : SeqInfo) : SeqInfo :=
  { info with
    id := info.id.map (stringSubst ctx),
    format := info.format.map (stringSubst ctx) }

/-- `apply_actions(content_config, actions, context, sequence_counters,
rule_name, sequence_overrides)` from `src/converter.py`, instrumented with
the list of action kinds it executed, in execution order.  A true `skip`
aborts the whole block; otherwise the present blocks run in the fixed
source order delete, rename, set, append, prepend, sequence, each map
passing first through placeholder substitution. -/
def apply_actions (evalExpr : String → List (String × Val) → List (String × Val) → Option Val)
    (yamlLoad : String → Option Val) (content_config : List (String × Val))
    (actions : Actions) (context : List (String × Val))
    (sequence_counters : List (CKey × Int)) (rule_name : String)
    (sequence_overrides : List (String × Int)) :
    List (String × Val) × List (CKey × Int) × List ActionKind :=
  if actions.skip then (content_config, sequence_counters, [])
  else
    let (cfg1, t1) : List (String × Val) × List ActionKind :=
      match actions.delete with
      | some paths => ((paths.map (stringSubst context)).foldl deleteEntry content_config,
          [ActionKind.delete])
      | none => (content_config, [])
    let (cfg2, t2) : List (String × Val) × List ActionKind :=
      match actions.rename with
      | some pairs =>
        ((pairs.map (fun kv => (stringSubst context kv.1, stringSubst context kv.2))).foldl
          (fun c kv => renameEntry c kv.1 kv.2) cfg1, [ActionKind.rename])
      | none => (cfg1, [])
    let (cfg3, t3) : List (String × Val) × List ActionKind :=
      match actions.set with
      | some entries =>
        ((entries.map (fun kv => (stringSubst context kv.1, processSetVal yamlLoad context kv.2))).foldl
          (fun c kv => setEntry evalExpr context c kv.1 kv.2) cfg2, [ActionKind.set])
      | none => (cfg2, [])
    let (cfg4, t4) : List (String × Val) × List ActionKind :=
      match actions.append with
      | some entries =>
        ((entries.map (fun kv => (stringSubst context kv.1, process_placeholders yamlLoad context kv.2))).foldl
          (fun c kv => appendEntry c kv.1 kv.2) cfg3, [ActionKind.append])
      | none => (cfg3, [])
    let (cfg5, t5) : List (String × Val) × List ActionKind :=
      match actions.prepend with
      | some entries =>
        ((entries.map (fun kv => (stringSubst context kv.1, process_placeholders yamlLoad context kv.2))).foldl
          (fun c kv => prependEntry c kv.1 kv.2) cfg4, [ActionKind.prepend])
      | none => (cfg4, [])
    let (st6, t6) : (List (String × Val) × List (CKey × Int)) × List ActionKind :=
      match actions.sequence with
      | some entries =>
        ((entries.map (fun kv => (stringSubst context kv.1, processSeqInfo context kv.2))).foldl
          (fun st kv => applySeqEntry sequence_overrides st rule_name kv.1 kv.2)
          (cfg5, sequence_counters), [ActionKind.sequence])
      | none => ((cfg5, sequence_counters), [])
    (st6.1, st6.2, t1 ++ t2 ++ t3 ++ t4 ++ t5 ++ t6)

/-- A `depends_on` declaration: a single rule name or a list of names. -/
inductive Deps where
  | one (s : String)
  | many (l : List String)
deriving DecidableEq

/-- The dependency gate of the rule driver (`if dependencies:` is a
truthiness test, so `None`, `""` and `[]` all disable the gate); a single
name is wrapped into a list. -/
def depsToCheck : Option Deps → Option (List String)
  | none => none
  | some (.one s) => if s = "" then none else some [s]
  | some (.many l) => if l = [] then none else some l

/-- One nested rule (typed rendering; `name` absent or present, possibly
the literal default display name). -/
structure NestedRule where
  name : Option String := none
  depends_on : Option Deps := none
  conditions : Option (List Condition) := none
  actions : Actions := {}

/-- The per-record rule loop of `convert_single_file`: for each nested rule
in declaration order — dependency gate, `skip` gate, condition gate, then
`apply_actions`; a rule with a truthy `name` is added to the record's
executed-rule set after it is applied. -/
def runRules (evalExpr : String → List (String × Val) → List (String × Val) → Option Val)
    (yamlLoad : String → Option Val) (overrides : List (String × Int))
    (ctxv : List (String × Val)) :
    List NestedRule → List (String × Val) → List (CKey × Int) → List String →
      List (String × Val) × List (CKey × Int)
  | [], cfg, counters, _ => (cfg, counters)
  | r :: rest, cfg, counters, execd =>
    let ruleName := r.name.getD "Unnamed Rule"
    let depsMissing : Bool :=
      match depsToCheck r.depends_on with
      | some deps => deps.any (fun d => !(execd.contains d))
      | none => false
    if depsMissing then
      runRules evalExpr yamlLoad overrides ctxv rest cfg counters execd
    else if r.actions.skip then
      runRules evalExpr yamlLoad overrides ctxv rest cfg counters execd
    else if (match r.conditions with
             | some cs => cs.all (fun c => evaluate_condition yamlLoad cfg c ctxv)
             | none => true) then
      let res := apply_actions evalExpr yamlLoad cfg r.actions ctxv counters ruleName overrides
      let execd2 :=
        match r.name with
        | some n => if n = "" then execd else execd ++ [n]
        | none => execd
      runRules evalExpr yamlLoad overrides ctxv rest res.1 res.2.1 execd2
    else
      runRules evalExpr yamlLoad overrides ctxv rest cfg counters execd

/-- A rule-file `context` definition: a static value or an
`\x7bexpression, default_value?\x7d` block. -/
inductive CtxDef where
  | static (v : Val)
  | exprBlock (expression : String) (default_value : Option Val)
deriving DecidableEq

/-- `process_dynamic_context(context_definitions, content_config,
base_context, logger)` from `src/converter.py`: fold the definitions in
declaration order over the base context; an expression sees the context
accumulated so far (`ctxEval` stands for the `asteval` call with the
context / `data` symbol table); on failure use `default_value`, else skip
the variable. -/
def process_dynamic_context
    (ctxEval : String → List (String × Val) → List (String × Val) → Option Val)
    (context_definitions : List (String × CtxDef)) (content_config : List (String × Val))
    (base_context : List (String × Val)) : List (String × Val) :=
  context_definitions.foldl
    (fun acc kv =>
      match kv.2 with
      | .static v => alistSet acc kv.1 v
      | .exprBlock e dflt =>
        match ctxEval e acc content_config with
        | some v => alistSet acc kv.1 v
        | none =>
          match dflt with
          | some v => alistSet acc kv.1 v
          | none => acc)
    base_context

/-- One top-level rule of the rules file. -/
structure TopRule where
  name : Option String := none
  content : Option String := none
  context : List (String × CtxDef) := []
  rules : List NestedRule := []

/-- `^\x7bre.escape(content_key_base)\x7d\d*$` applied to a group key:
the key is the base followed by digits only. -/
def matchesContentKey (base k : String) : Bool :=
  k.startsWith base && (k.drop base.length).all Char.isDigit

/-- Process every record of one content group under one top-level rule:
deep-copy the record (identity, functionally), build the base context and
the dynamic context, run the nested rules, store the result under the
group/id.  State is `(new_data group contents so far, sequence counters)`. -/
def processGroup (ctxEval evalExpr : String → List (String × Val) → List (String × Val) → Option Val)
    (yamlLoad : String → Option Val) (overrides : List (String × Int))
    (contentType : String) (rules : List NestedRule)
    (ctxDefs : List (String × CtxDef)) :
    List (String × Val) → List (String × Val) × List (CKey × Int) →
      List (String × Val) × List (CKey × Int)
  | [], st => st
  | (cid, cfgOld) :: rest, st =>
    let cfgNew : List (String × Val) :=
      match cfgOld with
      | .dict m => m
      | _ => []
    let baseCtx : List (String × Val) :=
      [("content_id", Val.str cid), ("content_type", Val.str contentType)]
    let fctx := process_dynamic_context ctxEval ctxDefs cfgNew baseCtx
    let res := runRules evalExpr yamlLoad overrides fctx rules cfgNew st.2 []
    processGroup ctxEval evalExpr yamlLoad overrides contentType rules ctxDefs rest
      (alistSet st.1 cid (.dict res.1), res.2)

/-- The pure core of `convert_single_file` (between YAML load and dump):
fold the top-level rules over `(new_data, sequence_counters)`, starting
from an empty output tree and fresh counters; every group key matching
`^\x7bbase\x7ds?\d*$` for the rule's content type is re-created empty in the
output and refilled with the transformed records.  Records are modelled as
mappings (a non-mapping record or group would crash the source).  -/
def convert_single_file_core
    (ctxEval evalExpr : String → List (String × Val) → List (String × Val) → Option Val)
    (yamlLoad : String → Option Val) (old_data : List (String × Val))
    (rules_list : List TopRule) (sequence_overrides : List (String × Int)) :
    List (String × Val) :=
  (rules_list.foldl
    (fun (st : List (String × Val) × List (CKey × Int)) tr =>
      match tr.content with
      | none => st
      | some ct =>
        if ct = "" then st
        else
          let base := if ct.endsWith "s" then ct else ct ++ "s"
          let matching := (old_data.map Prod.fst).filter (matchesContentKey base)
          matching.foldl
            (fun st ckey =>
              let contents : List (String × Val) :=
                match alistGet old_data ckey with
                | some (.dict m) => m
                | _ => []
              if contents = [] then (alistSet st.1 ckey (.dict []), st.2)
              else
                let groupInit : List (String × Val) :=
                  match alistGet (alistSet st.1 ckey (.dict [])) ckey with
                  | some (.dict g) => g
                  | _ => []
                let res := processGroup ctxEval evalExpr yamlLoad sequence_overrides ct
                  tr.rules tr.context contents (groupInit, st.2)
                (alistSet st.1 ckey (.dict res.1), res.2))
            st)
    (([], []) : List (String × Val) × List (CKey × Int))).1

/-- Whether a dotted path fully resolves in a value: every segment indexes
a mapping that contains it. -/
def resolvesParts : Val → List String → Bool
  | _, [] => true
  | .dict m, part :: rest =>
    match alistGet m part with
    | some v => resolvesParts v rest
    | none => false
  | _, _ :: _ => false

/-- The override-key a counter key is looked up under: the shared id, or
the isolated path. -/
def overrideKeyOfCKey : CKey → String
  | .shared i => i
  | .isolated _ p => p

/-- Whether an action block contains a given (non-skip) action kind. -/
def kindPresent (a : Actions) : ActionKind → Bool
  | .delete => a.delete.isSome
  | .rename => a.rename.isSome
  | .set => a.set.isSome
  | .append => a.append.isSome
  | .prepend => a.prepend.isSome
  | .sequence => a.sequence.isSome

/-- A trivial expression-sandbox instance (every expression fails), used to
instantiate the sandbox parameter in concrete computations. -/
def stubEval : String → List (String × Val) → List (String × Val) → Option Val :=
  fun _ _ _ => none

/-- A trivial re-parse instance (every parse fails, substituted strings stay
strings), used to instantiate the `yaml.safe_load` parameter. -/
def stubYaml : String → Option Val :=
  fun _ => none

theorem getParts_setParts (parts : List String) (hne : parts ≠ []) :
    ∀ (m : List (String × Val)) (v : Val),
      getParts (.dict (setParts m parts v)) parts = v := by
  induction parts with
  | nil => exact absurd rfl hne
  | cons part rest ih =>
    intro m v
    cases rest with
    | nil => simp [setParts, getParts, alistGet_alistSet_self]
    | cons p2 r2 =>
      simp only [setParts, getParts, alistGet_alistSet_self]
      exact ih (by simp) _ v

theorem get_nested_value_set_nested_value (data : List (String × Val)) (path : String)
    (v : Val) : get_nested_value (set_nested_value data path v) path = v :=
  getParts_setParts (pathParts path) (pathParts_ne_nil path) data v

theorem getParts_null_of_not_resolves :
    ∀ (parts : List String) (v : Val), resolvesParts v parts = false → getParts v parts = .null := by
  intro parts
  induction parts with
  | nil => intro v h; simp [resolvesParts] at h
  | cons part rest ih =>
    intro v h
    cases v with
    | dict m =>
      simp only [resolvesParts] at h
      cases hget : alistGet m part with
      | none => simp [getParts, hget]
      | some w =>
        rw [hget] at h
        simp only at h
        simp only [getParts, hget]
        exact ih w h
    | null => simp [getParts]
    | bool b => simp [getParts]
    | int n => simp [getParts]
    | str s => simp [getParts]
    | list xs => simp [getParts]

/-- Whether a sequence application resolves to counter key `K`. -/
def isKApp (K : CKey) (a : SeqApp) : Bool :=
  decide (counterKeyFor a.rule a.path a.info = some K)

theorem applySeqEntryT_preserves_other (ov : List (String × Int))
    (st : List (String × Val) × List (CKey × Int)) (rn p : String) (info : SeqInfo)
    (K : CKey) (h : counterKeyFor rn p info ≠ some K) :
    alistGet ((applySeqEntryT ov st rn p info).1).2 K = alistGet st.2 K := by
  cases hk : counterKeyFor rn p info with
  | none => simp [applySeqEntryT, hk]
  | some key =>
    have hne : K ≠ key := fun he => h (he ▸ hk)
    cases hc : alistGet st.2 key with
    | some v => simp [applySeqEntryT, hk, hc, alistGet_alistSet_ne _ _ _ _ hne]
    | none => simp [applySeqEntryT, hk, hc, alistGet_alistSet_ne _ _ _ _ hne]

theorem applySeqEntryT_key (ov : List (String × Int))
    (st : List (String × Val) × List (CKey × Int)) (rn p : String) (info : SeqInfo)
    (kv : CKey × Int) (h : (applySeqEntryT ov st rn p info).2 = some kv) :
    counterKeyFor rn p info = some kv.1 := by
  cases hk : counterKeyFor rn p info with
  | none => simp [applySeqEntryT, hk] at h
  | some key =>
    cases hc : alistGet st.2 key <;>
      simp [applySeqEntryT, hk, hc] at h <;> simp [← h, hk]


theorem overrideKeyFor_counterKey (rn p : String) (info : SeqInfo) (K : CKey)
    (h : counterKeyFor rn p info = some K) :
    overrideKeyFor p info = overrideKeyOfCKey K := by
  cases hid : info.id with
  | none =>
    simp only [counterKeyFor, hid, isolatedKeyFor] at h
    by_cases hrn : rn = "Unnamed Rule"
    · simp [hrn] at h
    · simp only [hrn, if_false] at h
      simp only [Option.some.injEq] at h
      simp [overrideKeyFor, hid, ← h, overrideKeyOfCKey]
  | some i =>
    simp only [counterKeyFor, hid] at h
    by_cases hi : i = ""
    · simp only [hi, if_true, isolatedKeyFor] at h
      by_cases hrn : rn = "Unnamed Rule"
      · simp [hrn] at h
      · simp only [hrn, if_false, Option.some.injEq] at h
        simp [overrideKeyFor, hid, hi, ← h, overrideKeyOfCKey]
    · simp only [hi, if_false, Option.some.injEq] at h
      simp [overrideKeyFor, hid, hi, ← h, overrideKeyOfCKey]

theorem range_map_arith (c s : Int) (n : ℕ) :
    (List.range (n + 1)).map (fun i : ℕ => c + (i : Int) * s) =
      c :: (List.range n).map (fun i : ℕ => (c + s) + (i : Int) * s) := by
  rw [List.range_succ_eq_map, List.map_cons, List.map_map]
  have h0 : c + ((0 : ℕ) : Int) * s = c := by simp
  rw [h0]
  congr 1
  apply List.map_congr_left
  intro i _
  simp only [Function.comp_apply, Nat.cast_succ]
  ring

theorem seqObserved_cons_some (ov : List (String × Int)) (K : CKey) (a : SeqApp)
    (rest : List SeqApp) (st : List (String × Val) × List (CKey × Int)) (c : Int)
    (hsnd : (applySeqEntryT ov st a.rule a.path a.info).2 = some (K, c)) :
    seqObserved ov K (a :: rest) st =
      c :: seqObserved ov K rest (applySeqEntryT ov st a.rule a.path a.info).1 := by
  cases hr : applySeqEntryT ov st a.rule a.path a.info with
  | mk st2 o =>
    rw [hr] at hsnd
    simp only at hsnd
    subst hsnd
    simp [seqObserved, seqTrace, hr, List.filter_cons]

theorem seqObserved_cons_drop (ov : List (String × Int)) (K : CKey) (a : SeqApp)
    (rest : List SeqApp) (st : List (String × Val) × List (CKey × Int))
    (h : counterKeyFor a.rule a.path a.info ≠ some K) :
    seqObserved ov K (a :: rest) st =
      seqObserved ov K rest (applySeqEntryT ov st a.rule a.path a.info).1 := by
  cases hr : applySeqEntryT ov st a.rule a.path a.info with
  | mk st2 o =>
    cases o with
    | none => simp [seqObserved, seqTrace, hr]
    | some kv =>
      have hkey : counterKeyFor a.rule a.path a.info = some kv.1 := by
        have := applySeqEntryT_key ov st a.rule a.path a.info kv
        rw [hr] at this
        exact this rfl
      have hne : kv.1 ≠ K := fun he => h (he ▸ hkey)
      simp [seqObserved, seqTrace, hr, List.filter_cons, hne]

theorem seqObserved_of_present (ov : List (String × Int)) (K : CKey) (s : Int) :
    ∀ (apps : List SeqApp) (st : List (String × Val) × List (CKey × Int)) (c : Int),
      alistGet st.2 K = some c →
      (∀ a ∈ apps, counterKeyFor a.rule a.path a.info = some K → a.info.step.getD 1 = s) →
      seqObserved ov K apps st =
        (List.range (apps.countP (isKApp K))).map (fun i : ℕ => c + (i : Int) * s) := by
  intro apps
  induction apps with
  | nil => intro st c hc hs; simp [seqObserved, seqTrace]
  | cons a rest ih =>
    intro st c hc hs
    by_cases hk : counterKeyFor a.rule a.path a.info = some K
    · have hstep : a.info.step.getD 1 = s := hs a (by simp) hk
      have hsnd : (applySeqEntryT ov st a.rule a.path a.info).2 = some (K, c) := by
        simp [applySeqEntryT, hk, hc]
      have hc2 : alistGet ((applySeqEntryT ov st a.rule a.path a.info).1).2 K = some (c + s) := by
        simp [applySeqEntryT, hk, hc, hstep, alistGet_alistSet_self]
      rw [seqObserved_cons_some ov K a rest st c hsnd,
        ih _ _ hc2 (fun x hx hkx => hs x (by simp [hx]) hkx)]
      have hcount : (a :: rest).countP (isKApp K) = rest.countP (isKApp K) + 1 := by
        simp [List.countP_cons, isKApp, hk]
      rw [hcount, range_map_arith]
    · have hc2 : alistGet ((applySeqEntryT ov st a.rule a.path a.info).1).2 K = some c := by
        rw [applySeqEntryT_preserves_other _ _ _ _ _ _ hk]; exact hc
      have hcount : (a :: rest).countP (isKApp K) = rest.countP (isKApp K) := by
        simp [List.countP_cons, isKApp, hk]
      rw [seqObserved_cons_drop ov K a rest st hk,
        ih _ _ hc2 (fun x hx hkx => hs x (by simp [hx]) hkx), hcount]

theorem stringSubst_nil (s : String) : stringSubst [] s = s := rfl

mutual

theorem process_placeholders_nil (y : String → Option Val) :
    ∀ v : Val, process_placeholders y [] v = v
  | .null => rfl
  | .bool b => rfl
  | .int n => rfl
  | .str s => by simp [process_placeholders, stringSubst]
  | .list xs => by simp [process_placeholders, processValList_nil y xs]
  | .dict m => by simp [process_placeholders, processValDict_nil y m]

theorem processValList_nil (y : String → Option Val) :
    ∀ xs : List Val, processValList y [] xs = xs
  | [] => rfl
  | x :: xs => by
    simp [processValList, process_placeholders_nil y x, processValList_nil y xs]

theorem processValDict_nil (y : String → Option Val) :
    ∀ m : List (String × Val), processValDict y [] m = m
  | [] => rfl
  | (k, v) :: rest => by
    simp [processValDict, stringSubst, process_placeholders_nil y v, processValDict_nil y rest]

end

theorem processCondition_nil (y : String → Option Val) (c : Condition) :
    processCondition y [] c = c := by
  cases c with
  | mk path ex v r mn mx =>
    cases path <;> cases v <;>
      simp [processCondition, stringSubst, process_placeholders_nil]

/-- C1 (counterexample): with an empty rule set the entry point does NOT
return a deep copy of the input record tree — the whole `items` group of a
nonempty input is dropped and the output is empty. -/
theorem claim_C1_counterexample :
    convert_single_file_core stubEval stubEval stubYaml
        [("items", Val.dict [("a", Val.dict [("damage", Val.int 5)])])] [] [] = [] ∧
    [("items", Val.dict [("a", Val.dict [("damage", Val.int 5)])])] ≠
      ([] : List (String × Val)) :=
  ⟨rfl, by decide⟩

/-- C1 (amended): for every input record tree and an empty rule set the
transformation core returns the empty output tree — only content groups
matched by some top-level rule are ever copied into the output, so with no
rules nothing is, and the identity law fails for every nonempty input. -/
theorem claim_C1_theorem
    (ctxEval evalExpr : String → List (String × Val) → List (String × Val) → Option Val)
    (yamlLoad : String → Option Val) (old_data : List (String × Val))
    (ov : List (String × Int)) :
    convert_single_file_core ctxEval evalExpr yamlLoad old_data [] ov = [] := rfl

/-- C4 (counterexample): a field that is present but holds `null` makes a
condition with `exists: false` PASS (the claim predicts it fails): the
absence sentinel and a stored `null` are both Python `None`. -/
theorem claim_C4_counterexample :
    alistGet [("f", Val.null)] "f" = some Val.null ∧
    evaluate_condition stubYaml [("f", Val.null)]
      {path := some "f", existsFlag := some false} [] = true :=
  ⟨rfl, rfl⟩

/-- C4 (amended): for every record and nonempty path, a condition with only
`exists: false` passes exactly when the value resolved at the path is the
`None` sentinel — i.e. the field is absent OR present holding `null`; it
fails exactly on a present non-null field.  (For the empty path the
evaluator rejects the condition outright: `if not path`.) -/
theorem claim_C4_theorem (yamlLoad : String → Option Val) (item : List (String × Val))
    (p : String) (hp : p ≠ "") :
    (evaluate_condition yamlLoad item {path := some p, existsFlag := some false} [] = true ↔
      get_nested_value item p = Val.null) := by
  have hpc := processCondition_nil yamlLoad {path := some p, existsFlag := some false}
  by_cases hv : get_nested_value item p = Val.null <;>
    simp [evaluate_condition, hpc, hp, hv, existsCheck, absentCheck, valueCheck,
      regexCheck, rangeCheck]

/-- C4 (witness): the amended theorem at a concrete input — an absent field
passes `exists: false`. -/
theorem claim_C4_witness :
    evaluate_condition stubYaml [] {path := some "f", existsFlag := some false} [] = true :=
  (claim_C4_theorem stubYaml [] "f" (by decide)).mpr rfl

/-- C5: a condition whose path resolves to no value fails whenever it
specifies any of `value`, `regex_match`, `min` or `max`, even with no
`exists` clause given. -/
theorem claim_C5_theorem (yamlLoad : String → Option Val) (item : List (String × Val))
    (c : Condition) (p : String) (hpath : c.path = some p) (hp : p ≠ "")
    (hnull : get_nested_value item p = Val.null)
    (hsome : (c.value.isSome || c.regex_match.isSome || c.min.isSome || c.max.isSome) = true) :
    evaluate_condition yamlLoad item c [] = false := by
  have hpc := processCondition_nil yamlLoad c
  cases hex : c.existsFlag with
  | none => simp [evaluate_condition, hpc, hpath, hp, hnull, hsome, hex, existsCheck, absentCheck]
  | some b =>
    cases b <;>
      simp [evaluate_condition, hpc, hpath, hp, hnull, hsome, hex, existsCheck, absentCheck]

/-- C5 (witness): the theorem at a concrete input — `min` on an absent
field fails. -/
theorem claim_C5_witness :
    evaluate_condition stubYaml [] {path := some "x", min := some 1} [] = false :=
  claim_C5_theorem stubYaml [] {path := some "x", min := some 1} "x" rfl (by decide) rfl
    (by decide)

/-- C6: a condition with only a `regex_match` check passes exactly when the
field value is a string and the pattern accepts some (possibly proper)
prefix of it — start-anchored, not full-match; every non-string value
(including an absent field) fails. -/
theorem claim_C6_theorem (yamlLoad : String → Option Val) (item : List (String × Val))
    (p : String) (r : Regex) (hp : p ≠ "") :
    (evaluate_condition yamlLoad item {path := some p, regex_match := some r} [] = true ↔
      ∃ s, get_nested_value item p = Val.str s ∧
        ∃ n, n ≤ s.data.length ∧ r.accepts (s.data.take n) = true) := by
  have hpc := processCondition_nil yamlLoad {path := some p, regex_match := some r}
  cases hv : get_nested_value item p with
  | str s =>
    simp [evaluate_condition, hpc, hp, hv, existsCheck, absentCheck, valueCheck, regexCheck,
      rangeCheck, reMatch, List.any_eq_true, List.mem_range, Nat.lt_succ_iff]
  | null =>
    simp [evaluate_condition, hpc, hp, hv, existsCheck, absentCheck]
  | bool b =>
    simp [evaluate_condition, hpc, hp, hv, existsCheck, absentCheck, valueCheck, regexCheck]
  | int n =>
    simp [evaluate_condition, hpc, hp, hv, existsCheck, absentCheck, valueCheck, regexCheck]
  | list xs =>
    simp [evaluate_condition, hpc, hp, hv, existsCheck, absentCheck, valueCheck, regexCheck]
  | dict m =>
    simp [evaluate_condition, hpc, hp, hv, existsCheck, absentCheck, valueCheck, regexCheck]

/-- C6 (witness): the theorem at a concrete input — the pattern `ab`
matches the string `"abc"` by matching only its proper prefix `"ab"`. -/
theorem claim_C6_witness :
    evaluate_condition stubYaml [("id", Val.str "abc")]
      {path := some "id", regex_match := some (Regex.seq (Regex.char 'a') (Regex.char 'b'))}
      [] = true :=
  (claim_C6_theorem stubYaml [("id", Val.str "abc")] "id"
      (Regex.seq (Regex.char 'a') (Regex.char 'b')) (by decide)).mpr
    ⟨"abc", rfl, 2, by decide, by decide⟩

/-- C2: within one file conversion, the counter values written by
successive sequence applications bound to one counter key `K` form the
arithmetic progression `v0, v0 + s, v0 + 2*s, ...` in application order,
regardless of interleaving with applications bound to other counter keys
(all K-bound applications using step `s`); `v0` is the externally supplied
override for `K`'s override-key if one exists at the moment `K` is first
created, else the creating spec's `start` (default 0); after `K` exists the
override is never consulted again and the counter is never reset. -/
theorem claim_C2_theorem (ov : List (String × Int)) (K : CKey) (s : Int)
    (pre post : List SeqApp) (first : SeqApp)
    (st0 : List (String × Val) × List (CKey × Int))
    (h0 : alistGet st0.2 K = none)
    (hpre : ∀ a ∈ pre, counterKeyFor a.rule a.path a.info ≠ some K)
    (hfirst : counterKeyFor first.rule first.path first.info = some K)
    (hstep : ∀ a ∈ first :: post,
      counterKeyFor a.rule a.path a.info = some K → a.info.step.getD 1 = s) :
    seqObserved ov K (pre ++ first :: post) st0 =
      (List.range (post.countP (isKApp K) + 1)).map
        (fun i : ℕ =>
          (alistGet ov (overrideKeyOfCKey K)).getD (first.info.start.getD 0) + (i : Int) * s) := by
  induction pre generalizing st0 with
  | nil =>
    rw [List.nil_append]
    have hokey : overrideKeyFor first.path first.info = overrideKeyOfCKey K :=
      overrideKeyFor_counterKey _ _ _ _ hfirst
    have hstep1 : first.info.step.getD 1 = s := hstep first (by simp) hfirst
    have hsnd : (applySeqEntryT ov st0 first.rule first.path first.info).2 =
        some (K, (alistGet ov (overrideKeyOfCKey K)).getD (first.info.start.getD 0)) := by
      simp [applySeqEntryT, hfirst, h0, hokey]
    have hc2 : alistGet ((applySeqEntryT ov st0 first.rule first.path first.info).1).2 K =
        some ((alistGet ov (overrideKeyOfCKey K)).getD (first.info.start.getD 0) + s) := by
      simp [applySeqEntryT, hfirst, h0, hokey, hstep1, alistGet_alistSet_self]
    rw [seqObserved_cons_some ov K first post st0 _ hsnd,
      seqObserved_of_present ov K s post _ _ hc2 (fun x hx hkx => hstep x (by simp [hx]) hkx),
      range_map_arith]
  | cons a pre2 ih =>
    have hka : counterKeyFor a.rule a.path a.info ≠ some K := hpre a (by simp)
    have h0b : alistGet ((applySeqEntryT ov st0 a.rule a.path a.info).1).2 K = none := by
      rw [applySeqEntryT_preserves_other _ _ _ _ _ _ hka]; exact h0
    rw [List.cons_append, seqObserved_cons_drop ov K a _ st0 hka]
    exact ih _ h0b (fun x hx => hpre x (by simp [hx]))

/-- C2 (witness): the spec's override scenario — a shared counter with id
`custom-model-data`, `start: 1`, an override of 50000, interleaved with an
unrelated isolated counter: the observed values are 50000, 50001. -/
theorem claim_C2_witness :
    seqObserved [("custom-model-data", 50000)] (CKey.shared "custom-model-data")
      ([⟨"R2", "q", {start := some 10, step := some 2}⟩] ++
        (⟨"R1", "p", {id := some "custom-model-data", start := some 1}⟩ : SeqApp) ::
          [⟨"R2", "q", {start := some 10, step := some 2}⟩,
           ⟨"R1", "p", {id := some "custom-model-data", start := some 1}⟩])
      ([], []) = [50000, 50001] := by
  have h := claim_C2_theorem [("custom-model-data", 50000)] (CKey.shared "custom-model-data") 1
    [⟨"R2", "q", {start := some 10, step := some 2}⟩]
    [⟨"R2", "q", {start := some 10, step := some 2}⟩,
     ⟨"R1", "p", {id := some "custom-model-data", start := some 1}⟩]
    ⟨"R1", "p", {id := some "custom-model-data", start := some 1}⟩
    ([], []) (by decide) (by decide) (by decide) (by decide)
  rw [h]
  decide

/-- C3: the action applicator executes the present action kinds of a rule
in exactly the fixed order skip, delete, rename, set, append, prepend,
sequence: a true `skip` executes none of the others and leaves record and
counters untouched; otherwise the executed kinds are exactly the present
ones in that fixed order; and in the rule driver a rule whose actions carry
`skip: true` leaves the processing of the remaining rules of the same
record unchanged (later rules still run). -/
theorem claim_C3_theorem :
    (∀ evalExpr yamlLoad cfg (a : Actions) ctx cnt rn ov, a.skip = true →
      apply_actions evalExpr yamlLoad cfg a ctx cnt rn ov = (cfg, cnt, [])) ∧
    (∀ evalExpr yamlLoad cfg (a : Actions) ctx cnt rn ov, a.skip = false →
      (apply_actions evalExpr yamlLoad cfg a ctx cnt rn ov).2.2 =
        [ActionKind.delete, ActionKind.rename, ActionKind.set, ActionKind.append,
          ActionKind.prepend, ActionKind.sequence].filter (kindPresent a)) ∧
    (∀ evalExpr yamlLoad ov ctx (r : NestedRule) rest cfg cnt ex, r.actions.skip = true →
      runRules evalExpr yamlLoad ov ctx (r :: rest) cfg cnt ex =
        runRules evalExpr yamlLoad ov ctx rest cfg cnt ex) := by
  refine ⟨?_, ?_, ?_⟩
  · intro evalExpr yamlLoad cfg a ctx cnt rn ov h
    simp [apply_actions, h]
  · intro evalExpr yamlLoad cfg a ctx cnt rn ov h
    obtain ⟨sk, d, rn2, st2, ap, pp, sq⟩ := a
    simp only at h
    subst h
    cases d <;> cases rn2 <;> cases st2 <;> cases ap <;> cases pp <;> cases sq <;>
      simp [apply_actions, kindPresent]
  · intro evalExpr yamlLoad ov ctx r rest cfg cnt ex h
    simp only [runRules, h]
    split <;> simp

/-- C3 (witness): the theorem at concrete inputs — a skipped block does
nothing, a block with delete, append and sequence executes exactly those in
order, and a skip rule leaves the rest of the driver run unchanged. -/
theorem claim_C3_witness :
    apply_actions stubEval stubYaml [] {skip := true, delete := some ["x"]} [] [] "R" [] =
      ([], [], []) ∧
    (apply_actions stubEval stubYaml []
        {delete := some ["x"], append := some [("t", Val.int 1)], sequence := some []}
        [] [] "R" []).2.2 =
      [ActionKind.delete, ActionKind.append, ActionKind.sequence] ∧
    runRules stubEval stubYaml [] []
        [{actions := {skip := true}}, {name := some "R2"}] [] [] [] =
      runRules stubEval stubYaml [] [] [{name := some "R2"}] [] [] [] := by
  refine ⟨claim_C3_theorem.1 _ _ _ _ _ _ _ _ rfl, ?_,
    claim_C3_theorem.2.2 _ _ _ _ _ _ _ _ _ rfl⟩
  have h := claim_C3_theorem.2.1 stubEval stubYaml []
    {delete := some ["x"], append := some [("t", Val.int 1)], sequence := some []}
    [] [] "R" [] rfl
  rw [h]
  decide

/-- C7: write-then-read consistency of the path utilities: after
`set(record, path, value)` a `get(record, path)` returns exactly `value`,
for every record, dotted path string and value; and `set` achieves this by
replacing a missing or non-mapping intermediate node with a fresh empty
mapping into which the remaining path is written. -/
theorem claim_C7_theorem :
    (∀ (data : List (String × Val)) (path : String) (v : Val),
      get_nested_value (set_nested_value data path v) path = v) ∧
    (∀ (m : List (String × Val)) (a : String) (rest : List String) (v : Val),
      rest ≠ [] → (∀ c, alistGet m a ≠ some (Val.dict c)) →
      setParts m (a :: rest) v = alistSet m a (.dict (setParts [] rest v))) := by
  constructor
  · exact get_nested_value_set_nested_value
  · intro m a rest v hrest hnd
    cases rest with
    | nil => exact absurd rfl hrest
    | cons r rs =>
      cases hget : alistGet m a with
      | none => simp [setParts, hget]
      | some w =>
        cases w with
        | dict c => exact absurd hget (hnd c)
        | null => simp [setParts, hget]
        | bool b => simp [setParts, hget]
        | int n => simp [setParts, hget]
        | str s => simp [setParts, hget]
        | list xs => simp [setParts, hget]

/-- C7 (witness): the second conjunct at a concrete input — a non-mapping
intermediate (`a` holds 1) is overwritten with a fresh mapping. -/
theorem claim_C7_witness :
    setParts [("a", Val.int 1)] ["a", "b"] (Val.int 7) =
      alistSet [("a", Val.int 1)] "a" (Val.dict (setParts [] ["b"] (Val.int 7))) :=
  claim_C7_theorem.2 [("a", Val.int 1)] "a" ["b"] (Val.int 7) (by decide)
    (by intro c hc; simp [alistGet] at hc)

/-- C8 (counterexample): a present field holding `null` is a non-sequence,
yet `append` does not skip and does not leave the record unchanged at the
path — it replaces the field with a fresh list of the added value (the
`None` sentinel conflates present-null with absent). -/
theorem claim_C8_counterexample :
    alistGet [("tags", Val.null)] "tags" = some Val.null ∧
    appendEntry [("tags", Val.null)] "tags" (Val.str "rare") =
      [("tags", Val.list [Val.str "rare"])] ∧
    appendEntry [("tags", Val.null)] "tags" (Val.str "rare") ≠ [("tags", Val.null)] :=
  ⟨rfl, rfl, by decide⟩

/-- C8 (amended): for every append on path `P` — if the value at `P`
resolves to the `None` sentinel (absent field, OR present holding `null`)
the result at `P` is a sequence of exactly the added value(s) in order; if
`P` holds a sequence the value(s) are concatenated at its end preserving
their relative order; if `P` holds a present non-null non-sequence the
record is left unchanged (the operation is skipped non-fatally). -/
theorem claim_C8_theorem (cfg : List (String × Val)) (path : String) (elems : Val) :
    (get_nested_value cfg path = Val.null →
      get_nested_value (appendEntry cfg path elems) path = Val.list (coerceToList elems)) ∧
    (∀ l, get_nested_value cfg path = Val.list l →
      get_nested_value (appendEntry cfg path elems) path =
        Val.list (l ++ coerceToList elems)) ∧
    ((∀ l, get_nested_value cfg path ≠ Val.list l) → get_nested_value cfg path ≠ Val.null →
      appendEntry cfg path elems = cfg) := by
  refine ⟨?_, ?_, ?_⟩
  · intro h
    simp [appendEntry, h, get_nested_value_set_nested_value]
  · intro l h
    simp [appendEntry, h, get_nested_value_set_nested_value]
  · intro hl hn
    cases hv : get_nested_value cfg path with
    | null => exact absurd hv hn
    | list xs => exact absurd hv (hl xs)
    | bool b => simp [appendEntry, hv]
    | int n => simp [appendEntry, hv]
    | str s => simp [appendEntry, hv]
    | dict m => simp [appendEntry, hv]

/-- C8 (witness): the spec's concrete scenario via the amended theorem —
append `"rare"` to an absent `tags` giving `["rare"]`, then append
`["epic","new"]` giving `["rare","epic","new"]`. -/
theorem claim_C8_witness :
    get_nested_value (appendEntry [] "tags" (Val.str "rare")) "tags" =
      Val.list [Val.str "rare"] ∧
    get_nested_value
        (appendEntry (appendEntry [] "tags" (Val.str "rare")) "tags"
          (Val.list [Val.str "epic", Val.str "new"])) "tags" =
      Val.list [Val.str "rare", Val.str "epic", Val.str "new"] := by
  refine ⟨(claim_C8_theorem [] "tags" (Val.str "rare")).1 rfl, ?_⟩
  have h := (claim_C8_theorem (appendEntry [] "tags" (Val.str "rare")) "tags"
    (Val.list [Val.str "epic", Val.str "new"])).2.1 [Val.str "rare"] (by decide)
  simpa [coerceToList] using h

/-- C9: `get` is total over every record and dotted path (the embedding is
a total function — the source never raises): whenever the path does not
fully resolve through mappings it returns the `None` sentinel, and that
sentinel is distinct from a field legitimately holding an empty or zero
value (empty string, 0, empty sequence, empty mapping). -/
theorem claim_C9_theorem :
    (∀ (data : List (String × Val)) (path : String),
      resolvesParts (.dict data) (pathParts path) = false →
        get_nested_value data path = Val.null) ∧
    (Val.null ≠ Val.str "" ∧ Val.null ≠ Val.int 0 ∧ Val.null ≠ Val.list [] ∧
      Val.null ≠ Val.dict []) :=
  ⟨fun _ path h => getParts_null_of_not_resolves (pathParts path) _ h, by decide⟩

/-- C9 (witness): the theorem at a concrete input — indexing through a
non-mapping yields the sentinel. -/
theorem claim_C9_witness :
    get_nested_value [("a", Val.int 1)] "a.b" = Val.null :=
  claim_C9_theorem.1 [("a", Val.int 1)] "a.b" (by decide)

/-- C10: a nested rule whose declared name is literally `"Unnamed Rule"` is
indistinguishable, when an isolated sequence action without an explicit id
runs, from a rule with no name at all: the display name handed to
`apply_actions` is the same string, no isolated counter key is resolved,
and the sequence entry is skipped with a logged error — record, counters
and trace untouched. -/
theorem claim_C10_theorem (ov : List (String × Int))
    (st : List (String × Val) × List (CKey × Int)) (p : String) (info : SeqInfo)
    (hid : info.id = none) :
    (({name := some "Unnamed Rule"} : NestedRule).name.getD "Unnamed Rule" =
      ({} : NestedRule).name.getD "Unnamed Rule") ∧
    counterKeyFor "Unnamed Rule" p info = none ∧
    applySeqEntryT ov st "Unnamed Rule" p info = (st, none) := by
  refine ⟨rfl, ?_, ?_⟩
  · simp [counterKeyFor, hid, isolatedKeyFor]
  · simp [applySeqEntryT, counterKeyFor, hid, isolatedKeyFor]

/-- C10 (witness): the theorem at a concrete input. -/
theorem claim_C10_witness :
    applySeqEntryT [] ([("x", Val.int 1)], []) "Unnamed Rule" "p" {start := some 5} =
      (([("x", Val.int 1)], []), none) :=
  (claim_C10_theorem [] ([("x", Val.int 1)], []) "p" {start := some 5} rfl).2.2
